import Mathlib

/-!
Verification of the core subsystems of the open-adk-claw runtime against its
natural-language specification.

The development shallowly embeds the three core subsystems:

given in src/src/adk_claw/dispatcher.py:
  the dispatcher's idle-session rotation state machine (rotate_session)
  and the reply construction of work-item processing (process_reply);
given in src/src/adk_claw/queue.py:
  the per-key debounce engine (push / debounce_fire);
given in src/src/adk_claw/memory/search.py and memory/embeddings.py:
  markdown chunking (split_by_headings), Reciprocal Rank Fusion (rrf_fuse),
  hybrid search (search) and the deduplicating embedding store (upsert_chunks).

Python dicts are modelled as insertion-ordered association lists; monotonic
time and scores are modelled as rationals; external collaborators (agent
runner, session service, embedding API, BM25 scoring) are oracles supplied as
structure fields, with a fallible call modelled as an Except value.  String
operations that Python performs on str values are modelled on the character
list underlying the Lean String, mirroring the Python semantics.
-/

namespace AdkClaw

/-! Association lists modelling Python dict (insertion order preserved,
one binding per key).  assignment d[k] = v replaces in place or appends,
del removes the binding, lookup returns the bound value. -/

def alookup {κ α : Type} [DecidableEq κ] : List (κ × α) → κ → Option α
  | [], _ => none
  | p :: rest, key => if p.1 = key then some p.2 else alookup rest key

def ainsert {κ α : Type} [DecidableEq κ] : List (κ × α) → κ → α → List (κ × α)
  | [], key, v => [(key, v)]
  | p :: rest, key, v => if p.1 = key then (p.1, v) :: rest else p :: ainsert rest key v

def aerase {κ α : Type} [DecidableEq κ] (d : List (κ × α)) (key : κ) : List (κ × α) :=
  d.filter (fun p => p.1 ≠ key)

theorem alookup_ainsert_self {κ α : Type} [DecidableEq κ] (d : List (κ × α)) (key : κ) (v : α) :
    alookup (ainsert d key v) key = some v := by
  induction d with
  | nil => simp [ainsert, alookup]
  | cons p rest ih =>
    by_cases h : p.1 = key
    · simp [ainsert, alookup, h]
    · simp [ainsert, alookup, h, ih]

theorem alookup_ainsert_ne {κ α : Type} [DecidableEq κ] (d : List (κ × α)) (key key2 : κ)
    (v : α) (h : key ≠ key2) : alookup (ainsert d key v) key2 = alookup d key2 := by
  induction d with
  | nil => simp [ainsert, alookup, h]
  | cons p rest ih =>
    by_cases hp : p.1 = key
    · simp [ainsert, alookup, hp, h, ih]
    · by_cases hp2 : p.1 = key2
      · simp [ainsert, alookup, hp, hp2, Ne.symm h]
      · simp [ainsert, alookup, hp, hp2, ih]

theorem alookup_aerase_self {κ α : Type} [DecidableEq κ] (d : List (κ × α)) (key : κ) :
    alookup (aerase d key) key = none := by
  induction d with
  | nil => simp [aerase, alookup]
  | cons p rest ih =>
    by_cases h : p.1 = key
    · simpa [aerase, alookup, h] using ih
    · simpa [aerase, alookup, h] using ih

theorem alookup_mem {κ α : Type} [DecidableEq κ] (d : List (κ × α)) (key : κ) (v : α)
    (h : alookup d key = some v) : (key, v) ∈ d := by
  induction d with
  | nil => simp [alookup] at h
  | cons p rest ih =>
    obtain ⟨a, b⟩ := p
    by_cases hp : a = key
    · simp [alookup, hp] at h
      subst hp; subst h
      exact List.mem_cons_self _ _
    · simp [alookup, hp] at h
      exact List.mem_cons_of_mem _ (ih h)

theorem mem_ainsert {κ α : Type} [DecidableEq κ] (d : List (κ × α)) (key : κ) (v : α)
    (q : κ × α) (h : q ∈ ainsert d key v) : q = (key, v) ∨ q ∈ d := by
  induction d with
  | nil => simp [ainsert] at h; simp [h]
  | cons p rest ih =>
    by_cases hp : p.1 = key
    · simp [ainsert, hp] at h
      rcases h with h | h
      · left; exact h
      · right; exact List.mem_cons_of_mem _ h
    · simp [ainsert, hp] at h
      rcases h with h | h
      · right; simp [h]
      · rcases ih h with h2 | h2
        · left; exact h2
        · right; exact List.mem_cons_of_mem _ h2

/-! Dispatcher session rotation (src/src/adk_claw/dispatcher.py, rotate_session).

State: the dispatcher's per-key session map and last-activity map.  Time is
modelled as a rational (time.monotonic).  The external session service and
curator runner are an oracle environment; each of the three side-effecting
steps is wrapped by the code in a try/except that swallows the exception, so
the oracle records whether a call raises but a raise never interrupts the
sequence.  The observable calls made to the collaborators are returned as an
effect trace.  The final del of the last-activity entry is not wrapped, so a
missing key there would raise; the result records that case in keyError. -/

structure DispState where
  sessions : List (String × String)
  lastActivity : List (String × ℚ)
  deriving DecidableEq

inductive Effect where
  | curate (sessionId : String)
  | flush (sessionId : String)
  | deleteSession (sessionId : String)
  | createSession (sessionId : String)
  deriving DecidableEq

structure RotateEnv where
  now : ℚ
  hasCurator : Bool
  curateRaises : Bool
  getSession : Except Unit Bool
  flushRaises : Bool
  deleteRaises : Bool
  newSessionId : String

structure RotateResult where
  state : DispState
  effects : List Effect
  keyError : Bool
  deriving DecidableEq

def rotate_session (timeout : ℚ) (env : RotateEnv) (s : DispState) (chatId : String) :
    RotateResult :=
  let last := (alookup s.lastActivity chatId).getD env.now
  if env.now - last < timeout then
    ⟨s, [], false⟩
  else
    match alookup s.sessions chatId with
    | none => ⟨s, [], false⟩
    | some sessionId =>
      let curateEffects := if env.hasCurator then [Effect.curate sessionId] else []
      let flushEffects :=
        match env.getSession with
        | .error _ => []
        | .ok false => []
        | .ok true => [Effect.flush sessionId]
      let effects := curateEffects ++ flushEffects ++
        [Effect.deleteSession sessionId, Effect.createSession env.newSessionId]
      let sessions2 := ainsert s.sessions chatId env.newSessionId
      if (alookup s.lastActivity chatId).isSome then
        ⟨⟨sessions2, aerase s.lastActivity chatId⟩, effects, false⟩
      else
        ⟨⟨sessions2, s.lastActivity⟩, effects, true⟩

/-- C1: if the under-lock idle re-check passes and the key has a live session
id, rotation installs the freshly created session id (which differs from the
pre-rotation id), clears the key's last-activity entry, and the deletion
record contains the old session id exactly once — for every environment,
including those where the curation step or the flush step raises. -/
theorem rotate_session_completes (timeout : ℚ) (env : RotateEnv) (s : DispState)
    (chatId oldSid : String)
    (hpos : 0 < timeout)
    (hidle : timeout ≤ env.now - (alookup s.lastActivity chatId).getD env.now)
    (hsess : alookup s.sessions chatId = some oldSid)
    (hfresh : env.newSessionId ≠ oldSid) :
    alookup (rotate_session timeout env s chatId).state.sessions chatId = some env.newSessionId ∧
    alookup (rotate_session timeout env s chatId).state.sessions chatId ≠ some oldSid ∧
    alookup (rotate_session timeout env s chatId).state.lastActivity chatId = none ∧
    (rotate_session timeout env s chatId).effects.filter
      (fun e => e = Effect.deleteSession oldSid) = [Effect.deleteSession oldSid] ∧
    (rotate_session timeout env s chatId).keyError = false := by
  have hnotlt : ¬(env.now - (alookup s.lastActivity chatId).getD env.now < timeout) :=
    not_lt.mpr hidle
  have hla : (alookup s.lastActivity chatId).isSome := by
    cases hsome : alookup s.lastActivity chatId with
    | none =>
      rw [hsome] at hidle
      simp at hidle
      exact absurd (lt_of_lt_of_le hpos hidle) (by simp)
    | some l => simp
  unfold rotate_session
  rw [if_neg hnotlt, hsess]
  simp only [hla, if_pos]
  refine ⟨?_, ?_, ?_, ?_, by trivial⟩
  · exact alookup_ainsert_self s.sessions chatId env.newSessionId
  · rw [alookup_ainsert_self s.sessions chatId env.newSessionId]
    simp [hfresh]
  · exact alookup_aerase_self s.lastActivity chatId
  · cases env.getSession with
    | error e => cases env.hasCurator <;> simp [hfresh]
    | ok b => cases b <;> cases env.hasCurator <;> simp [hfresh]

/-- C1 witness: a concrete rotation in an environment where curation, the
session fetch and the delete call all raise, starting from an idle key with a
live session. -/
theorem rotate_session_completes_witness :
    alookup (rotate_session 1 ⟨5, true, true, .error (), true, true, "s2"⟩
      ⟨[("c", "s1")], [("c", 0)]⟩ "c").state.sessions "c" = some "s2" ∧
    alookup (rotate_session 1 ⟨5, true, true, .error (), true, true, "s2"⟩
      ⟨[("c", "s1")], [("c", 0)]⟩ "c").state.lastActivity "c" = none := by
  have h := rotate_session_completes 1 ⟨5, true, true, .error (), true, true, "s2"⟩
    ⟨[("c", "s1")], [("c", 0)]⟩ "c" "s1" (by norm_num)
    (by norm_num [alookup]) (by simp [alookup]) (by simp)
  exact ⟨h.1, h.2.2.1⟩

/-- C2: if under the rotation lock the elapsed idle time is below the idle
timeout (activity resumed while rotation waited for the lock), rotation
returns with no side effects: the state is unchanged and no collaborator call
is made. -/
theorem rotate_session_active_noop (timeout : ℚ) (env : RotateEnv) (s : DispState)
    (chatId : String)
    (hactive : env.now - (alookup s.lastActivity chatId).getD env.now < timeout) :
    rotate_session timeout env s chatId = ⟨s, [], false⟩ := by
  unfold rotate_session
  rw [if_pos hactive]

/-- C2 witness: a concrete rotation attempt against a key whose activity was
refreshed while rotation waited; the state comes back untouched and the
effect trace is empty. -/
theorem rotate_session_active_noop_witness :
    rotate_session 10 ⟨5, true, false, .ok true, false, false, "s2"⟩
      ⟨[("c", "s1")], [("c", 4)]⟩ "c" = ⟨⟨[("c", "s1")], [("c", 4)]⟩, [], false⟩ :=
  rotate_session_active_noop 10 ⟨5, true, false, .ok true, false, false, "s2"⟩
    ⟨[("c", "s1")], [("c", 4)]⟩ "c" (by norm_num [alookup])

/-- C9: with a positive configured idle timeout, a key with no last-activity
entry is treated as having elapsed idle time zero, so its rotation is skipped
with no side effects; consequently whenever rotation proceeds past the
re-check the last-activity entry exists, and the unconditional del of that
entry never raises a missing-key error. -/
theorem rotate_session_missing_activity_safe (timeout : ℚ) (env : RotateEnv)
    (s : DispState) (chatId : String) (hpos : 0 < timeout) :
    (alookup s.lastActivity chatId = none →
      rotate_session timeout env s chatId = ⟨s, [], false⟩) ∧
    (rotate_session timeout env s chatId).keyError = false := by
  constructor
  · intro hnone
    unfold rotate_session
    rw [hnone]
    simp [hpos]
  · cases hsome : alookup s.lastActivity chatId with
    | none =>
      unfold rotate_session
      rw [hsome]
      simp [hpos]
    | some l =>
      unfold rotate_session
      by_cases hlt : env.now - (alookup s.lastActivity chatId).getD env.now < timeout
      · rw [if_pos hlt]
      · rw [if_neg hlt]
        cases alookup s.sessions chatId with
        | none => rfl
        | some sid => simp [hsome]

/-- C9 witness: rotation of a key that has a live session but no
last-activity entry is a no-op, at a concrete positive timeout. -/
theorem rotate_session_missing_activity_safe_witness :
    rotate_session 1 ⟨5, false, false, .ok false, false, false, "s2"⟩
      ⟨[("c", "s1")], []⟩ "c" = ⟨⟨[("c", "s1")], []⟩, [], false⟩ :=
  (rotate_session_missing_activity_safe 1 ⟨5, false, false, .ok false, false, false, "s2"⟩
    ⟨[("c", "s1")], []⟩ "c" (by norm_num)).1 rfl

/-! Debounce queue (src/src/adk_claw/queue.py).

Per-key message buffers, a pending timer task per key, and a timer-id
counter.  push appends to the key's buffer, cancels the key's pending timer
task (its id joins the cancelled set: an asyncio task cancelled during its
sleep never runs its body) and arms a fresh timer.  debounce_fire is the
body a timer task runs after its sleep: it atomically pops the key's buffer
and timer entry and, when the drained buffer is nonempty, delivers it as the
batch (the second component some batch = the callback invocation). -/

structure QueuedMessage where
  chat_id : String
  text : String
  user_name : String
  deriving DecidableEq

structure QueueState where
  buffers : List (String × List QueuedMessage)
  timers : List (String × Nat)
  nextTimer : Nat
  cancelled : List Nat
  deriving DecidableEq

def push (st : QueueState) (chat_id text user_name : String) : QueueState :=
  let buf := (alookup st.buffers chat_id).getD []
  let cancelled2 :=
    match alookup st.timers chat_id with
    | some t => t :: st.cancelled
    | none => st.cancelled
  ⟨ainsert st.buffers chat_id (buf ++ [⟨chat_id, text, user_name⟩]),
   ainsert st.timers chat_id st.nextTimer, st.nextTimer + 1, cancelled2⟩

def debounce_fire (st : QueueState) (chat_id : String) (timerId : Nat) :
    QueueState × Option (List QueuedMessage) :=
  if timerId ∈ st.cancelled then (st, none)
  else
    let messages := (alookup st.buffers chat_id).getD []
    let st2 : QueueState :=
      ⟨aerase st.buffers chat_id, aerase st.timers chat_id, st.nextTimer, st.cancelled⟩
    if messages = [] then (st2, none) else (st2, some messages)

def mkMessage (chat_id : String) (m : String × String) : QueuedMessage :=
  ⟨chat_id, m.1, m.2⟩

def pushAll (st : QueueState) (chat_id : String) (msgs : List (String × String)) : QueueState :=
  msgs.foldl (fun s m => push s chat_id m.1 m.2) st

def fireAll : QueueState → String → List Nat → QueueState × List (List QueuedMessage)
  | st, _, [] => (st, [])
  | st, chat_id, t :: rest =>
    let fr := debounce_fire st chat_id t
    let next := fireAll fr.1 chat_id rest
    (next.1, (match fr.2 with | some b => [b] | none => []) ++ next.2)

/-- Timer ids recorded in the cancelled set and the pending timer entry for
the key are below the timer-id counter. -/
def QueueInv (st : QueueState) (chat_id : String) : Prop :=
  (∀ t ∈ st.cancelled, t < st.nextTimer) ∧
  (∀ t, alookup st.timers chat_id = some t → t < st.nextTimer)

theorem push_inv (st : QueueState) (chat_id text user_name : String)
    (h : QueueInv st chat_id) : QueueInv (push st chat_id text user_name) chat_id := by
  obtain ⟨hc, ht⟩ := h
  constructor
  · intro t hmem
    simp only [push] at hmem
    cases htm : alookup st.timers chat_id with
    | none =>
      rw [htm] at hmem
      exact Nat.lt_succ_of_lt (hc t hmem)
    | some t0 =>
      rw [htm] at hmem
      rcases List.mem_cons.mp hmem with h1 | h1
      · subst h1; exact Nat.lt_succ_of_lt (ht t htm)
      · exact Nat.lt_succ_of_lt (hc t h1)
  · intro t hmem
    simp only [push, alookup_ainsert_self] at hmem
    cases hmem
    exact Nat.lt_succ_self _

theorem pushAll_inv (msgs : List (String × String)) (st : QueueState) (chat_id : String)
    (h : QueueInv st chat_id) : QueueInv (pushAll st chat_id msgs) chat_id := by
  induction msgs generalizing st with
  | nil => exact h
  | cons m rest ih => exact ih _ (push_inv st chat_id m.1 m.2 h)

theorem push_buffers (st : QueueState) (chat_id text user_name : String) :
    alookup (push st chat_id text user_name).buffers chat_id =
      some ((alookup st.buffers chat_id).getD [] ++ [⟨chat_id, text, user_name⟩]) := by
  simp [push, alookup_ainsert_self]

theorem pushAll_buffers (msgs : List (String × String)) (st : QueueState) (chat_id : String)
    (hne : msgs ≠ []) :
    alookup (pushAll st chat_id msgs).buffers chat_id =
      some ((alookup st.buffers chat_id).getD [] ++ msgs.map (mkMessage chat_id)) := by
  induction msgs generalizing st with
  | nil => exact absurd rfl hne
  | cons m rest ih =>
    cases rest with
    | nil =>
      simp only [pushAll, List.foldl_cons, List.foldl_nil, List.map_cons, List.map_nil]
      simpa [mkMessage] using push_buffers st chat_id m.1 m.2
    | cons r rs =>
      show alookup (pushAll (push st chat_id m.1 m.2) chat_id (r :: rs)).buffers chat_id = _
      rw [ih (push st chat_id m.1 m.2) (by simp)]
      rw [push_buffers st chat_id m.1 m.2]
      simp [mkMessage]

theorem pushAll_nextTimer (msgs : List (String × String)) (st : QueueState) (chat_id : String) :
    (pushAll st chat_id msgs).nextTimer = st.nextTimer + msgs.length := by
  induction msgs generalizing st with
  | nil => simp [pushAll]
  | cons m rest ih =>
    show (pushAll (push st chat_id m.1 m.2) chat_id rest).nextTimer = _
    rw [ih]
    simp [push]
    omega

theorem pushAll_timers (msgs : List (String × String)) (st : QueueState) (chat_id : String)
    (hne : msgs ≠ []) :
    alookup (pushAll st chat_id msgs).timers chat_id =
      some (st.nextTimer + (msgs.length - 1)) := by
  induction msgs generalizing st with
  | nil => exact absurd rfl hne
  | cons m rest ih =>
    cases rest with
    | nil =>
      simp only [pushAll, List.foldl_cons, List.foldl_nil]
      simp [push, alookup_ainsert_self]
    | cons r rs =>
      show alookup (pushAll (push st chat_id m.1 m.2) chat_id (r :: rs)).timers chat_id = _
      rw [ih (push st chat_id m.1 m.2) (by simp)]
      simp [push]
      omega

theorem pushAll_cancelled_lt (msgs : List (String × String)) (st : QueueState)
    (chat_id : String) (hne : msgs ≠ []) (hinv : QueueInv st chat_id) :
    ∀ t ∈ (pushAll st chat_id msgs).cancelled, t < st.nextTimer + (msgs.length - 1) := by
  induction msgs generalizing st with
  | nil => exact absurd rfl hne
  | cons m rest ih =>
    cases rest with
    | nil =>
      intro t hmem
      simp only [pushAll, List.foldl_cons, List.foldl_nil, push] at hmem
      cases htm : alookup st.timers chat_id with
      | none =>
        rw [htm] at hmem
        simpa using hinv.1 t hmem
      | some t0 =>
        rw [htm] at hmem
        rcases List.mem_cons.mp hmem with h1 | h1
        · subst h1; simpa using hinv.2 t htm
        · simpa using hinv.1 t h1
    | cons r rs =>
      intro t hmem
      have step : (pushAll st chat_id (m :: r :: rs)) =
          pushAll (push st chat_id m.1 m.2) chat_id (r :: rs) := rfl
      rw [step] at hmem
      have := ih (push st chat_id m.1 m.2) (by simp)
        (push_inv st chat_id m.1 m.2 hinv) t hmem
      simp [push] at this
      simp
      omega

theorem pushAll_cancelled_mono (msgs : List (String × String)) (st : QueueState)
    (chat_id : String) (t : Nat) (h : t ∈ st.cancelled) :
    t ∈ (pushAll st chat_id msgs).cancelled := by
  induction msgs generalizing st with
  | nil => exact h
  | cons m rest ih =>
    apply ih (push st chat_id m.1 m.2)
    simp only [push]
    cases alookup st.timers chat_id with
    | none => exact h
    | some t0 => exact List.mem_cons_of_mem _ h

theorem pushAll_pending_cancelled (msgs : List (String × String)) (st : QueueState)
    (chat_id : String) (t0 : Nat) (hne : msgs ≠ [])
    (htm : alookup st.timers chat_id = some t0) :
    t0 ∈ (pushAll st chat_id msgs).cancelled := by
  cases msgs with
  | nil => exact absurd rfl hne
  | cons m rest =>
    show t0 ∈ (pushAll (push st chat_id m.1 m.2) chat_id rest).cancelled
    apply pushAll_cancelled_mono
    simp only [push, htm]
    exact List.mem_cons_self _ _

theorem pushAll_old_timers_cancelled (msgs : List (String × String)) (st : QueueState)
    (chat_id : String) :
    ∀ i, i + 1 < msgs.length → st.nextTimer + i ∈ (pushAll st chat_id msgs).cancelled := by
  induction msgs generalizing st with
  | nil => intro i hi; simp at hi
  | cons m rest ih =>
    intro i hi
    have step : (pushAll st chat_id (m :: rest)) =
        pushAll (push st chat_id m.1 m.2) chat_id rest := rfl
    rw [step]
    cases i with
    | zero =>
      have hrest : rest ≠ [] := by
        cases rest with
        | nil => simp at hi
        | cons r rs => simp
      apply pushAll_pending_cancelled rest (push st chat_id m.1 m.2) chat_id _ hrest
      simp [push, alookup_ainsert_self]
    | succ j =>
      have := ih (push st chat_id m.1 m.2) j (by simp at hi ⊢; omega)
      simp only [push] at this ⊢
      have harith : st.nextTimer + (j + 1) = st.nextTimer + 1 + j := by omega
      rw [harith]
      exact this

theorem fireAll_all_cancelled (tids : List Nat) (st : QueueState) (chat_id : String)
    (h : ∀ t ∈ tids, t ∈ st.cancelled) : fireAll st chat_id tids = (st, []) := by
  induction tids with
  | nil => rfl
  | cons t rest ih =>
    have hc : t ∈ st.cancelled := h t (List.mem_cons_self _ _)
    simp only [fireAll, debounce_fire, if_pos hc]
    rw [ih (fun t2 ht2 => h t2 (List.mem_cons_of_mem _ ht2))]
    rfl

theorem fireAll_single (tids : List Nat) (st : QueueState) (chat_id : String)
    (live : Nat) (buf : List QueuedMessage)
    (hmem : ∀ t ∈ tids, t = live ∨ t ∈ st.cancelled)
    (hcount : tids.count live = 1)
    (hlive : live ∉ st.cancelled)
    (hbuf : alookup st.buffers chat_id = some buf) (hne : buf ≠ []) :
    (fireAll st chat_id tids).2 = [buf] ∧
    alookup (fireAll st chat_id tids).1.buffers chat_id = none ∧
    alookup (fireAll st chat_id tids).1.timers chat_id = none := by
  induction tids generalizing st with
  | nil => simp [List.count_nil] at hcount
  | cons t rest ih =>
    by_cases ht : t = live
    · subst ht
      have hrest0 : rest.count t = 0 := by
        have := hcount
        rw [List.count_cons_self] at this
        omega
      have hrestmem : ∀ t2 ∈ rest, t2 ∈ st.cancelled := by
        intro t2 ht2
        rcases hmem t2 (List.mem_cons_of_mem _ ht2) with h1 | h1
        · exfalso
          subst h1
          exact absurd ht2 (List.count_eq_zero.mp hrest0)
        · exact h1
      simp only [fireAll, debounce_fire, if_neg hlive, hbuf, Option.getD_some, if_neg hne]
      rw [fireAll_all_cancelled rest
        ⟨aerase st.buffers chat_id, aerase st.timers chat_id, st.nextTimer, st.cancelled⟩
        chat_id hrestmem]
      refine ⟨rfl, ?_, ?_⟩
      · exact alookup_aerase_self st.buffers chat_id
      · exact alookup_aerase_self st.timers chat_id
    · have hc : t ∈ st.cancelled := by
        rcases hmem t (List.mem_cons_self _ _) with h1 | h1
        · exact absurd h1 ht
        · exact h1
      simp only [fireAll, debounce_fire, if_pos hc]
      have hcount2 : rest.count live = 1 := by
        rw [List.count_cons_of_ne (by exact fun h => ht h.symm)] at hcount
        exact hcount
      exact ih st (fun t2 ht2 => hmem t2 (List.mem_cons_of_mem _ ht2)) hcount2 hlive hbuf

/-- C3: starting from a state where the key has no buffered messages and no
pending timer, a nonempty sequence of pushes all arriving within the debounce
window arms one timer per push and cancels each previous one; firing the
created timers (in any order, once each) delivers exactly one batch, holding
all pushed messages in push order, and the key's buffer and timer entries are
cleared in the state in which the callback runs. -/
theorem debounce_single_batch (st : QueueState) (chat_id : String)
    (msgs : List (String × String)) (tids : List Nat)
    (hbuf : alookup st.buffers chat_id = none)
    (htimer : alookup st.timers chat_id = none)
    (hcan : ∀ t ∈ st.cancelled, t < st.nextTimer)
    (hne : msgs ≠ [])
    (hperm : tids.Perm (List.range' st.nextTimer msgs.length)) :
    (fireAll (pushAll st chat_id msgs) chat_id tids).2 = [msgs.map (mkMessage chat_id)] ∧
    alookup (fireAll (pushAll st chat_id msgs) chat_id tids).1.buffers chat_id = none ∧
    alookup (fireAll (pushAll st chat_id msgs) chat_id tids).1.timers chat_id = none := by
  have hinv : QueueInv st chat_id := ⟨hcan, fun t ht => by rw [htimer] at ht; cases ht⟩
  have hlen : 1 ≤ msgs.length := by
    cases msgs with
    | nil => exact absurd rfl hne
    | cons m rest => simp
  have hlive : (st.nextTimer + (msgs.length - 1)) ∉ (pushAll st chat_id msgs).cancelled := by
    intro hmem
    have := pushAll_cancelled_lt msgs st chat_id hne hinv _ hmem
    omega
  have hmem : ∀ t ∈ tids, t = st.nextTimer + (msgs.length - 1) ∨
      t ∈ (pushAll st chat_id msgs).cancelled := by
    intro t ht
    have hr : t ∈ List.range' st.nextTimer msgs.length := hperm.mem_iff.mp ht
    have hb := List.mem_range'_1.mp hr
    by_cases hl : t = st.nextTimer + (msgs.length - 1)
    · exact Or.inl hl
    · right
      have hi : (t - st.nextTimer) + 1 < msgs.length := by omega
      have := pushAll_old_timers_cancelled msgs st chat_id (t - st.nextTimer) hi
      have harith : st.nextTimer + (t - st.nextTimer) = t := by omega
      rwa [harith] at this
  have hcount : tids.count (st.nextTimer + (msgs.length - 1)) = 1 := by
    rw [hperm.count_eq]
    apply List.count_eq_one_of_mem (List.nodup_range' st.nextTimer msgs.length)
    rw [List.mem_range'_1]
    omega
  have hbuf2 : alookup (pushAll st chat_id msgs).buffers chat_id =
      some (msgs.map (mkMessage chat_id)) := by
    rw [pushAll_buffers msgs st chat_id hne, hbuf]
    simp
  have hbatchne : msgs.map (mkMessage chat_id) ≠ [] := by
    cases msgs with
    | nil => exact absurd rfl hne
    | cons m rest => simp
  exact fireAll_single tids (pushAll st chat_id msgs) chat_id _ _ hmem hcount hlive hbuf2 hbatchne

/-- C3 witness: two pushes on a fresh key followed by firing both created
timers deliver exactly the single two-message batch, leaving the key's buffer
and timer entries cleared. -/
theorem debounce_single_batch_witness :
    (fireAll (pushAll ⟨[], [], 0, []⟩ "c" [("hi", "u"), ("there", "v")]) "c" [0, 1]).2 =
      [[⟨"c", "hi", "u"⟩, ⟨"c", "there", "v"⟩]] ∧
    alookup (fireAll (pushAll ⟨[], [], 0, []⟩ "c" [("hi", "u"), ("there", "v")]) "c"
      [0, 1]).1.buffers "c" = none := by
  have h := debounce_single_batch ⟨[], [], 0, []⟩ "c" [("hi", "u"), ("there", "v")] [0, 1]
    rfl rfl (by simp) (by simp) (by decide)
  exact ⟨h.1, h.2.1⟩

/-- C10: the debounce callback is never invoked with an empty batch: a fire
that returns a batch returns a nonempty one, and a fire whose drained buffer
for the key is empty (or absent) performs no callback invocation. -/
theorem debounce_fire_nonempty (st : QueueState) (chat_id : String) (timerId : Nat) :
    (∀ batch, (debounce_fire st chat_id timerId).2 = some batch → batch ≠ []) ∧
    ((alookup st.buffers chat_id).getD [] = [] →
      (debounce_fire st chat_id timerId).2 = none) := by
  constructor
  · intro batch hb
    by_cases hc : timerId ∈ st.cancelled
    · simp [debounce_fire, hc] at hb
    · by_cases hm : (alookup st.buffers chat_id).getD [] = []
      · simp [debounce_fire, hc, hm] at hb
      · simp [debounce_fire, hc, hm] at hb
        rw [← hb]
        exact hm
  · intro hm
    by_cases hc : timerId ∈ st.cancelled
    · simp [debounce_fire, hc]
    · simp [debounce_fire, hc, hm]

/-- C10 witness: a timer firing against a key whose buffer was already
drained invokes no callback. -/
theorem debounce_fire_nonempty_witness :
    (debounce_fire ⟨[("c", [])], [], 5, []⟩ "c" 0).2 = none :=
  (debounce_fire_nonempty ⟨[("c", [])], [], 5, []⟩ "c" 0).2 (by simp [alookup])

/-! Work-item reply construction (src/src/adk_claw/dispatcher.py, process).

The agent run is an oracle: the sequence of events it yields before either
finishing or raising, each event carrying a list of text parts (a part with
empty text is skipped by the code), and optionally the raised exception's
message.  The code collects parts into response_parts inside the try block,
so parts yielded before a raise are kept; the except arm appends the fixed
apology string; the reply sent is the newline join, stripped, and nothing is
sent when it is empty.  process_reply is total: the exception never escapes
the work-item processing.  String strip/join are modelled on the character
lists of the strings involved. -/

def py_strip_chars (cs : List Char) : List Char :=
  ((cs.dropWhile Char.isWhitespace).reverse.dropWhile Char.isWhitespace).reverse

def join_newline_strip (parts : List String) : String :=
  String.mk (py_strip_chars (List.intercalate ['\n'] (parts.map String.data)))

structure AgentRun where
  events : List (List String)
  raised : Option String
  deriving DecidableEq

def apology_text : String := "Sorry, I encountered an error processing your message."

def collect_parts (events : List (List String)) : List String :=
  (events.map (fun ps => ps.filter (fun t => t ≠ ""))).flatten

def process_reply (run : AgentRun) : Option String :=
  let response_parts := collect_parts run.events ++
    (match run.raised with | some _ => [apology_text] | none => [])
  let response_text := join_newline_strip response_parts
  if response_text = "" then none else some response_text

/-- C4 counterexample: an agent run that yields a text fragment and then
raises produces a reply that still contains the fragment, so the reply is
not the generic apology text alone (though a reply is sent). -/
theorem process_reply_not_apology_counterexample :
    process_reply ⟨[["partial answer"]], some "boom"⟩ ≠ some apology_text ∧
    process_reply ⟨[["partial answer"]], some "boom"⟩ =
      some "partial answer\nSorry, I encountered an error processing your message." := by
  constructor
  · decide
  · decide

/-- C4 (amended): when the agent-run operation raises, processing catches the
exception (process_reply is total and the raised message plays no role in
the reply, so the internal exception text is never surfaced), and the generic
apology is appended to whatever fragments were collected before the raise;
when no fragment was produced before the raise, the reply is exactly the
generic apology text. -/
theorem process_reply_apology (run : AgentRun) (msg : String) (h : run.raised = some msg) :
    (∀ msg2 : String, process_reply ⟨run.events, some msg2⟩ = process_reply run) ∧
    (collect_parts run.events = [] → process_reply run = some apology_text) := by
  constructor
  · intro msg2
    simp [process_reply, h]
  · intro hempty
    simp [process_reply, h, hempty]
    constructor
    · decide
    · decide

/-- C4 witness: an agent run that raises before yielding any text produces
exactly the generic apology reply. -/
theorem process_reply_apology_witness :
    process_reply ⟨[], some "boom"⟩ = some apology_text :=
  (process_reply_apology ⟨[], some "boom"⟩ "boom" rfl).2 rfl

/-! Markdown chunking (src/src/adk_claw/memory/search.py, split_by_headings).

Lines are obtained with Python's splitlines (no terminator on the last line,
no trailing empty line for a terminal newline, modelled for the newline
character); a heading line is a line starting with a hash character; the
heading text strips the leading hashes and surrounding whitespace; a chunk's
content is the newline join of its body lines, stripped, and chunks whose
stripped content is empty are discarded.  Scores are rationals (0 default).
-/

structure MemoryChunk where
  source_file : String
  heading : String
  content : String
  score : ℚ
  deriving DecidableEq

def py_splitlines : List Char → List (List Char)
  | [] => []
  | c :: rest =>
    if c = '\n' then
      [] :: py_splitlines rest
    else
      match py_splitlines rest with
      | [] => [[c]]
      | l :: ls => (c :: l) :: ls

def is_heading_line (l : List Char) : Bool :=
  match l with
  | c :: _ => c = '#'
  | [] => false

def heading_text (l : List Char) : String :=
  String.mk (py_strip_chars (l.dropWhile (fun c => c = '#')))

def chunk_content (ls : List (List Char)) : String :=
  String.mk (py_strip_chars (List.intercalate ['\n'] ls))

def flush_chunk (source_file : String) (heading : String) (ls : List (List Char))
    (rest : List MemoryChunk) : List MemoryChunk :=
  if ls = [] then rest
  else if chunk_content ls = "" then rest
  else ⟨source_file, heading, chunk_content ls, 0⟩ :: rest

def split_go (source_file : String) : String → List (List Char) → List (List Char) →
    List MemoryChunk
  | heading, acc, [] => flush_chunk source_file heading acc []
  | heading, acc, line :: rest =>
    if is_heading_line line then
      flush_chunk source_file heading acc (split_go source_file (heading_text line) [] rest)
    else
      split_go source_file heading (acc ++ [line]) rest

def split_by_headings (text : String) (source_file : String) : List MemoryChunk :=
  split_go source_file "" [] (py_splitlines text.data)

/-! Specification-level reformulation of the chunking contract: one segment
of leading content under the empty heading, then one segment per heading
line holding the heading's text and the body lines up to the next heading;
segments whose stripped joined body is empty yield no chunk. -/

def heading_blocks : List (List Char) → List (String × List (List Char))
  | [] => []
  | l :: rest =>
    if is_heading_line l then
      (heading_text l, rest.takeWhile (fun x => !is_heading_line x)) ::
        heading_blocks (rest.dropWhile (fun x => !is_heading_line x))
    else
      heading_blocks rest
termination_by ls => ls.length
decreasing_by
  all_goals simp_wf
  have := List.Sublist.length_le
    (List.dropWhile_sublist (l := ls) (fun x => !is_heading_line x))
  omega

theorem heading_blocks_nil : heading_blocks [] = [] := by
  rw [heading_blocks]

theorem heading_blocks_cons_heading (l : List Char) (rest : List (List Char))
    (h : is_heading_line l) :
    heading_blocks (l :: rest) =
      (heading_text l, rest.takeWhile (fun x => !is_heading_line x)) ::
        heading_blocks (rest.dropWhile (fun x => !is_heading_line x)) := by
  rw [heading_blocks]
  simp [h]

def segment_chunk (source_file : String) (seg : String × List (List Char)) :
    Option MemoryChunk :=
  if chunk_content seg.2 = "" then none
  else some ⟨source_file, seg.1, chunk_content seg.2, 0⟩

def split_by_headings_spec (text : String) (source_file : String) : List MemoryChunk :=
  let lines := py_splitlines text.data
  (((""), lines.takeWhile (fun x => !is_heading_line x)) ::
      heading_blocks (lines.dropWhile (fun x => !is_heading_line x))).filterMap
    (segment_chunk source_file)

theorem flush_chunk_eq (source_file heading : String) (ls : List (List Char))
    (rest : List MemoryChunk) :
    flush_chunk source_file heading ls rest =
      (match segment_chunk source_file (heading, ls) with
        | some c => c :: rest
        | none => rest) := by
  cases hls : ls with
  | nil =>
    have h : chunk_content ([] : List (List Char)) = "" := by decide
    simp [flush_chunk, segment_chunk, h]
  | cons l ls2 =>
    by_cases hc : chunk_content (l :: ls2) = ""
    · simp [flush_chunk, segment_chunk, hc]
    · simp [flush_chunk, segment_chunk, hc]

theorem split_go_eq_segments (source_file : String) (lines : List (List Char)) :
    ∀ (heading : String) (acc : List (List Char)),
      split_go source_file heading acc lines =
        ((heading, acc ++ lines.takeWhile (fun x => !is_heading_line x)) ::
            heading_blocks (lines.dropWhile (fun x => !is_heading_line x))).filterMap
          (segment_chunk source_file) := by
  induction lines with
  | nil =>
    intro heading acc
    simp only [split_go, List.takeWhile_nil, List.dropWhile_nil, heading_blocks_nil,
      List.append_nil, List.filterMap_cons, List.filterMap_nil]
    rw [flush_chunk_eq]
    cases segment_chunk source_file (heading, acc) <;> rfl
  | cons line rest ih =>
    intro heading acc
    by_cases hl : is_heading_line line
    · simp only [split_go, hl, if_true]
      rw [flush_chunk_eq, ih (heading_text line) []]
      have htw : (line :: rest).takeWhile (fun x => !is_heading_line x) = [] := by
        simp [List.takeWhile_cons, hl]
      have hdw : (line :: rest).dropWhile (fun x => !is_heading_line x) = line :: rest := by
        simp [List.dropWhile_cons, hl]
      rw [htw, hdw]
      rw [heading_blocks_cons_heading line rest hl]
      simp only [List.append_nil, List.nil_append, List.filterMap_cons]
      cases segment_chunk source_file (heading, acc) <;>
        cases segment_chunk source_file
          (heading_text line, rest.takeWhile (fun x => !is_heading_line x)) <;> rfl
    · simp only [split_go, hl, if_false]
      rw [ih heading (acc ++ [line])]
      have htw : (line :: rest).takeWhile (fun x => !is_heading_line x) =
          line :: rest.takeWhile (fun x => !is_heading_line x) := by
        simp [List.takeWhile_cons, hl]
      have hdw : (line :: rest).dropWhile (fun x => !is_heading_line x) =
          rest.dropWhile (fun x => !is_heading_line x) := by
        simp [List.dropWhile_cons, hl]
      rw [htw, hdw]
      simp

/-- C6: split_by_headings agrees everywhere with the specification-level
segmentation (one chunk per heading holding the heading text and the body up
to the next heading, the empty heading for leading content, chunks with
empty stripped body discarded), and on the scenario input with an empty
first section it yields exactly one chunk, with heading HasContent. -/
theorem split_by_headings_correct :
    (∀ text source_file, split_by_headings text source_file =
      split_by_headings_spec text source_file) ∧
    split_by_headings "# Empty\n\n# HasContent\nSome text." "src" =
      [⟨"src", "HasContent", "Some text.", 0⟩] := by
  constructor
  · intro text source_file
    unfold split_by_headings split_by_headings_spec
    rw [split_go_eq_segments]
    simp
  · decide

/-! Reciprocal Rank Fusion and hybrid search
(src/src/adk_claw/memory/search.py, rrf_fuse / bm25_search / vector_search /
search).

The running score total and the chunk map are insertion-ordered dicts keyed
by the (source_file, heading, content) identity; scores are rationals, with
the item at 1-based rank r of a list contributing 1/(k + r).  Python's
sorted with reverse=True is a stable descending sort; it is modelled by a
stable insertion sort: an element is placed before the first element of
smaller-or-equal score, so elements of equal score keep their first-insertion
order, as the stable library sort does.  BM25Okapi scoring and the embedding
API are oracles in the engine; the vector path absorbs its own exceptions and
degrades to the empty result, as the code's try/except does. -/

abbrev ChunkKey : Type := String × String × String

def chunkKey (c : MemoryChunk) : ChunkKey := (c.source_file, c.heading, c.content)

def insert_desc {α : Type} (score : α → ℚ) (x : α) : List α → List α
  | [] => [x]
  | y :: rest => if score y ≤ score x then x :: y :: rest else y :: insert_desc score x rest

def sort_desc {α : Type} (score : α → ℚ) : List α → List α
  | [] => []
  | x :: rest => insert_desc score x (sort_desc score rest)

def rrf_scan (k : ℕ) : List MemoryChunk → ℕ → List (ChunkKey × ℚ) →
    List (ChunkKey × MemoryChunk) → List (ChunkKey × ℚ) × List (ChunkKey × MemoryChunk)
  | [], _, scores, cmap => (scores, cmap)
  | c :: rest, rank, scores, cmap =>
    rrf_scan k rest (rank + 1)
      (ainsert scores (chunkKey c)
        ((alookup scores (chunkKey c)).getD 0 + 1 / ((k : ℚ) + (rank : ℚ))))
      (ainsert cmap (chunkKey c) c)

def rrf_scores (k : ℕ) (ranked_lists : List (List MemoryChunk)) :
    List (ChunkKey × ℚ) × List (ChunkKey × MemoryChunk) :=
  ranked_lists.foldl (fun acc l => rrf_scan k l 1 acc.1 acc.2) ([], [])

def rrf_fuse (ranked_lists : List (List MemoryChunk)) (k : ℕ) : List MemoryChunk :=
  (sort_desc (fun p => p.2) (rrf_scores k ranked_lists).1).map (fun p =>
    match alookup (rrf_scores k ranked_lists).2 p.1 with
    | some c => ⟨c.source_file, c.heading, c.content, p.2⟩
    | none => ⟨p.1.1, p.1.2.1, p.1.2.2, p.2⟩)

/-! Specification-level description of the fused score: the item at 1-based
rank r of a ranked list contributes 1/(k + r) when its identity key matches,
and contributions are summed across the lists. -/

def rrf_contrib (k : ℕ) : List MemoryChunk → ℕ → ChunkKey → ℚ
  | [], _, _ => 0
  | c :: rest, rank, key =>
    (if chunkKey c = key then 1 / ((k : ℚ) + (rank : ℚ)) else 0) +
      rrf_contrib k rest (rank + 1) key

def rrf_spec_score (k : ℕ) (ranked_lists : List (List MemoryChunk)) (key : ChunkKey) : ℚ :=
  (ranked_lists.map (fun l => rrf_contrib k l 1 key)).sum

def is_word_char (c : Char) : Bool := c.isAlphanum || c = '_'

def word_runs : List Char → List String
  | [] => []
  | c :: rest =>
    if is_word_char c then
      String.mk (c :: rest.takeWhile is_word_char) :: word_runs (rest.dropWhile is_word_char)
    else
      word_runs rest
termination_by cs => cs.length
decreasing_by
  all_goals simp_wf
  have := List.Sublist.length_le (List.dropWhile_sublist (l := rest) is_word_char)
  omega

def tokenize (s : String) : List String :=
  word_runs (s.data.map Char.toLower)

structure SearchEngine where
  chunks : List MemoryChunk
  has_index : Bool
  bm25_scores : List String → List ℚ
  vector_enabled : Bool
  has_store : Bool
  embed_oracle : String → Except Unit (List ℚ)
  vector_oracle : List ℚ → ℕ → Except Unit (List (MemoryChunk × ℚ))

def bm25_search (e : SearchEngine) (query : String) (top_k : ℕ) : List MemoryChunk :=
  if !e.has_index || e.chunks = [] then []
  else if tokenize query = [] then []
  else
    ((sort_desc (fun c => c.score)
      ((e.chunks.zip (e.bm25_scores (tokenize query))).filterMap
        (fun p => if 0 < p.2 then some ⟨p.1.source_file, p.1.heading, p.1.content, p.2⟩
          else none))).take top_k)

def vector_search (e : SearchEngine) (query : String) (top_k : ℕ) : List MemoryChunk :=
  if !e.vector_enabled || !e.has_store then []
  else
    match e.embed_oracle query with
    | .error _ => []
    | .ok qv =>
      match e.vector_oracle qv top_k with
      | .error _ => []
      | .ok results =>
        results.map (fun r => ⟨r.1.source_file, r.1.heading, r.1.content, 1 / (1 + r.2)⟩)

def search (e : SearchEngine) (query : String) (top_k : ℕ) : List MemoryChunk :=
  if !e.vector_enabled then (bm25_search e query (top_k * 2)).take top_k
  else if vector_search e query (top_k * 2) = [] then
    (bm25_search e query (top_k * 2)).take top_k
  else
    (rrf_fuse [bm25_search e query (top_k * 2), vector_search e query (top_k * 2)] 60).take top_k

def akeys {κ α : Type} (d : List (κ × α)) : List κ := d.map Prod.fst

theorem alookup_none_iff {κ α : Type} [DecidableEq κ] (d : List (κ × α)) (key : κ) :
    alookup d key = none ↔ key ∉ akeys d := by
  induction d with
  | nil => simp [alookup, akeys]
  | cons p rest ih =>
    by_cases hp : p.1 = key
    · simp [alookup, hp, akeys]
    · simp [alookup, hp, akeys, Ne.symm hp] at ih ⊢
      exact ih

theorem akeys_ainsert_isSome {κ α : Type} [DecidableEq κ] (d : List (κ × α)) (key : κ)
    (v : α) (h : (alookup d key).isSome) : akeys (ainsert d key v) = akeys d := by
  induction d with
  | nil => simp [alookup] at h
  | cons p rest ih =>
    by_cases hp : p.1 = key
    · simp [ainsert, hp, akeys]
    · simp [alookup, hp] at h
      simp [ainsert, hp, akeys] at ih ⊢
      exact ih h

theorem akeys_ainsert_none {κ α : Type} [DecidableEq κ] (d : List (κ × α)) (key : κ)
    (v : α) (h : alookup d key = none) : akeys (ainsert d key v) = akeys d ++ [key] := by
  induction d with
  | nil => simp [ainsert, akeys]
  | cons p rest ih =>
    by_cases hp : p.1 = key
    · simp [alookup, hp] at h
    · simp [alookup, hp] at h
      simp [ainsert, hp, akeys] at ih ⊢
      exact ih h

theorem akeys_nodup_ainsert {κ α : Type} [DecidableEq κ] (d : List (κ × α)) (key : κ)
    (v : α) (h : (akeys d).Nodup) : (akeys (ainsert d key v)).Nodup := by
  cases hl : alookup d key with
  | none =>
    rw [akeys_ainsert_none d key v hl]
    have hnm : key ∉ akeys d := (alookup_none_iff d key).mp hl
    simp [List.nodup_append, h, hnm]
  | some w =>
    rw [akeys_ainsert_isSome d key v (by simp [hl])]
    exact h

theorem alookup_of_mem_nodup {κ α : Type} [DecidableEq κ] (d : List (κ × α)) (key : κ)
    (v : α) (h : (akeys d).Nodup) (hm : (key, v) ∈ d) : alookup d key = some v := by
  induction d with
  | nil => cases hm
  | cons p rest ih =>
    rcases List.mem_cons.mp hm with h1 | h1
    · rw [← h1]
      simp [alookup]
    · have hk : key ∈ akeys rest := by
        simp only [akeys]
        exact List.mem_map.mpr ⟨(key, v), h1, rfl⟩
      have hp : p.1 ≠ key := by
        intro he
        simp [akeys, he] at h
        exact absurd hk (by simpa [akeys] using h.1)
      simp only [alookup, if_neg hp]
      exact ih (by simp [akeys] at h ⊢; exact h.2) h1

/-! Stable descending insertion sort: permutation, membership, sortedness. -/

theorem insert_desc_perm {α : Type} (score : α → ℚ) (x : α) (l : List α) :
    (insert_desc score x l).Perm (x :: l) := by
  induction l with
  | nil => simp [insert_desc]
  | cons y rest ih =>
    by_cases h : score y ≤ score x
    · simp [insert_desc, h]
    · simp only [insert_desc, if_neg h]
      exact (ih.cons y).trans (List.Perm.swap x y rest)

theorem sort_desc_perm {α : Type} (score : α → ℚ) (l : List α) :
    (sort_desc score l).Perm l := by
  induction l with
  | nil => simp [sort_desc]
  | cons x rest ih =>
    exact (insert_desc_perm score x (sort_desc score rest)).trans (ih.cons x)

theorem insert_desc_pairwise {α : Type} (score : α → ℚ) (x : α) (l : List α)
    (h : l.Pairwise (fun a b => score b ≤ score a)) :
    (insert_desc score x l).Pairwise (fun a b => score b ≤ score a) := by
  induction l with
  | nil => simp [insert_desc]
  | cons y rest ih =>
    rcases List.pairwise_cons.mp h with ⟨hy, hrest⟩
    by_cases hle : score y ≤ score x
    · simp only [insert_desc, if_pos hle]
      refine List.pairwise_cons.mpr ⟨?_, h⟩
      intro b hb
      rcases List.mem_cons.mp hb with h1 | h1
      · rw [h1]; exact hle
      · exact le_trans (hy b h1) hle
    · simp only [insert_desc, if_neg hle]
      refine List.pairwise_cons.mpr ⟨?_, ih hrest⟩
      intro b hb
      rcases List.mem_cons.mp ((insert_desc_perm score x rest).mem_iff.mp hb) with h1 | h1
      · rw [h1]; exact le_of_lt (lt_of_not_le hle)
      · exact hy b h1

theorem sort_desc_pairwise {α : Type} (score : α → ℚ) (l : List α) :
    (sort_desc score l).Pairwise (fun a b => score b ≤ score a) := by
  induction l with
  | nil => simp [sort_desc]
  | cons x rest ih => exact insert_desc_pairwise score x (sort_desc score rest) ih

/-! The running score dict built by rrf_scan / rrf_scores. -/

theorem rrf_scan_scores_getD (k : ℕ) (l : List MemoryChunk) :
    ∀ (rank : ℕ) (scores : List (ChunkKey × ℚ)) (cmap : List (ChunkKey × MemoryChunk))
      (key : ChunkKey),
      (alookup (rrf_scan k l rank scores cmap).1 key).getD 0 =
        (alookup scores key).getD 0 + rrf_contrib k l rank key := by
  induction l with
  | nil => intro rank scores cmap key; simp [rrf_scan, rrf_contrib]
  | cons c rest ih =>
    intro rank scores cmap key
    show (alookup (rrf_scan k rest (rank + 1)
        (ainsert scores (chunkKey c)
          ((alookup scores (chunkKey c)).getD 0 + 1 / ((k : ℚ) + (rank : ℚ))))
        (ainsert cmap (chunkKey c) c)).1 key).getD 0 = _
    rw [ih]
    by_cases hk : chunkKey c = key
    · rw [hk, alookup_ainsert_self]
      simp only [Option.getD_some, rrf_contrib, if_pos hk]
      ring
    · rw [alookup_ainsert_ne scores (chunkKey c) key _ hk]
      simp only [rrf_contrib, if_neg hk]
      ring

theorem rrf_scan_cmap_key (k : ℕ) (l : List MemoryChunk) :
    ∀ (rank : ℕ) (scores : List (ChunkKey × ℚ)) (cmap : List (ChunkKey × MemoryChunk)),
      (∀ p ∈ cmap, chunkKey p.2 = p.1) →
      ∀ p ∈ (rrf_scan k l rank scores cmap).2, chunkKey p.2 = p.1 := by
  induction l with
  | nil => intro rank scores cmap h; exact h
  | cons c rest ih =>
    intro rank scores cmap h
    apply ih
    intro p hp
    rcases mem_ainsert cmap (chunkKey c) c p hp with h1 | h1
    · rw [h1]
    · exact h p h1

theorem rrf_scan_scores_nodup (k : ℕ) (l : List MemoryChunk) :
    ∀ (rank : ℕ) (scores : List (ChunkKey × ℚ)) (cmap : List (ChunkKey × MemoryChunk)),
      (akeys scores).Nodup → (akeys (rrf_scan k l rank scores cmap).1).Nodup := by
  induction l with
  | nil => intro rank scores cmap h; exact h
  | cons c rest ih =>
    intro rank scores cmap h
    exact ih _ _ _ (akeys_nodup_ainsert scores (chunkKey c) _ h)

theorem rrf_scores_aux_getD (k : ℕ) (lists : List (List MemoryChunk)) :
    ∀ (acc : List (ChunkKey × ℚ) × List (ChunkKey × MemoryChunk)) (key : ChunkKey),
      (alookup (lists.foldl (fun acc l => rrf_scan k l 1 acc.1 acc.2) acc).1 key).getD 0 =
        (alookup acc.1 key).getD 0 + (lists.map (fun l => rrf_contrib k l 1 key)).sum := by
  induction lists with
  | nil => intro acc key; simp
  | cons l rest ih =>
    intro acc key
    rw [List.foldl_cons, ih]
    rw [rrf_scan_scores_getD]
    simp only [List.map_cons, List.sum_cons]
    ring

theorem rrf_scores_getD (k : ℕ) (lists : List (List MemoryChunk)) (key : ChunkKey) :
    (alookup (rrf_scores k lists).1 key).getD 0 = rrf_spec_score k lists key := by
  unfold rrf_scores rrf_spec_score
  rw [rrf_scores_aux_getD]
  simp [alookup]

theorem rrf_scores_nodup (k : ℕ) (lists : List (List MemoryChunk)) :
    (akeys (rrf_scores k lists).1).Nodup := by
  unfold rrf_scores
  have haux : ∀ (acc : List (ChunkKey × ℚ) × List (ChunkKey × MemoryChunk)),
      (akeys acc.1).Nodup →
      (akeys (lists.foldl (fun acc l => rrf_scan k l 1 acc.1 acc.2) acc).1).Nodup := by
    induction lists with
    | nil => intro acc h; exact h
    | cons l rest ih =>
      intro acc h
      rw [List.foldl_cons]
      exact ih _ (rrf_scan_scores_nodup k l 1 acc.1 acc.2 h)
  exact haux ([], []) (by simp [akeys])

theorem rrf_scores_cmap_key (k : ℕ) (lists : List (List MemoryChunk)) :
    ∀ p ∈ (rrf_scores k lists).2, chunkKey p.2 = p.1 := by
  unfold rrf_scores
  have haux : ∀ (acc : List (ChunkKey × ℚ) × List (ChunkKey × MemoryChunk)),
      (∀ p ∈ acc.2, chunkKey p.2 = p.1) →
      ∀ p ∈ (lists.foldl (fun acc l => rrf_scan k l 1 acc.1 acc.2) acc).2,
        chunkKey p.2 = p.1 := by
    induction lists with
    | nil => intro acc h; exact h
    | cons l rest ih =>
      intro acc h
      rw [List.foldl_cons]
      exact ih _ (rrf_scan_cmap_key k l 1 acc.1 acc.2 h)
  exact haux ([], []) (by simp)

theorem rrf_build_score (cmap : List (ChunkKey × MemoryChunk)) (p : ChunkKey × ℚ) :
    (match alookup cmap p.1 with
      | some c => (⟨c.source_file, c.heading, c.content, p.2⟩ : MemoryChunk)
      | none => ⟨p.1.1, p.1.2.1, p.1.2.2, p.2⟩).score = p.2 := by
  cases alookup cmap p.1 <;> rfl

def chunkA : MemoryChunk := ⟨"m", "a", "A", 0⟩

def chunkB : MemoryChunk := ⟨"m", "b", "B", 0⟩

def chunkC : MemoryChunk := ⟨"m", "c", "C", 0⟩

def engine_fused : SearchEngine :=
  ⟨[], true, fun _ => [], true, true, fun _ => .ok [], fun _ _ => .ok [(chunkA, 1)]⟩

/-- C5: every chunk produced by RRF fusion carries as score the sum over the
input lists of 1/(K + r) for each 1-based rank r at which its
(source, heading, content) identity appears; the fused list is sorted by
score descending; the hybrid search path truncates the fused list to top_k;
and on the scenario lists [[b, a], [c, b]] with K = 60 the fusion ranks b
first with score 1/61 + 1/62, ahead of c (1/61) and a (1/62). -/
theorem rrf_fuse_correct :
    (∀ (lists : List (List MemoryChunk)) (k : ℕ) (c : MemoryChunk), c ∈ rrf_fuse lists k →
      c.score = rrf_spec_score k lists (chunkKey c)) ∧
    (∀ (lists : List (List MemoryChunk)) (k : ℕ),
      (rrf_fuse lists k).Pairwise (fun a b => b.score ≤ a.score)) ∧
    (∀ (e : SearchEngine) (q : String) (topk : ℕ), e.vector_enabled = true →
      vector_search e q (topk * 2) ≠ [] →
      search e q topk =
        (rrf_fuse [bm25_search e q (topk * 2), vector_search e q (topk * 2)] 60).take topk) ∧
    rrf_fuse [[chunkB, chunkA], [chunkC, chunkB]] 60 =
      [⟨"m", "b", "B", 1/61 + 1/62⟩, ⟨"m", "c", "C", 1/61⟩, ⟨"m", "a", "A", 1/62⟩] := by
  refine ⟨?_, ?_, ?_, ?_⟩
  · intro lists k c hc
    unfold rrf_fuse at hc
    rcases List.mem_map.mp hc with ⟨p, hp, hbuild⟩
    have hmem : p ∈ (rrf_scores k lists).1 :=
      (sort_desc_perm (fun p => p.2) (rrf_scores k lists).1).mem_iff.mp hp
    have hlk : alookup (rrf_scores k lists).1 p.1 = some p.2 :=
      alookup_of_mem_nodup _ _ _ (rrf_scores_nodup k lists) (by rwa [Prod.mk.eta])
    have hscore : p.2 = rrf_spec_score k lists p.1 := by
      have hg := rrf_scores_getD k lists p.1
      rw [hlk] at hg
      simpa using hg
    have hckey : chunkKey c = p.1 := by
      cases hcm : alookup (rrf_scores k lists).2 p.1 with
      | none =>
        rw [hcm] at hbuild
        simp only at hbuild
        rw [← hbuild]
        simp [chunkKey]
      | some c0 =>
        have hc0 : chunkKey c0 = p.1 :=
          rrf_scores_cmap_key k lists (p.1, c0) (alookup_mem _ _ _ hcm)
        rw [hcm] at hbuild
        simp only at hbuild
        rw [← hbuild]
        simpa [chunkKey] using hc0
    have hcs : c.score = p.2 := by
      rw [← hbuild]
      exact rrf_build_score (rrf_scores k lists).2 p
    rw [hcs, hckey, hscore]
  · intro lists k
    unfold rrf_fuse
    apply List.Pairwise.map
    · intro a b hab
      rw [rrf_build_score, rrf_build_score]
      exact hab
    · exact sort_desc_pairwise (fun p => p.2) (rrf_scores k lists).1
  · intro e q topk hen hvec
    unfold search
    rw [hen]
    simp only [Bool.not_true, Bool.false_eq_true, if_false]
    rw [if_neg hvec]
  · have e1 : (("b" : String) = "a") = False := by decide
    have e2 : (("a" : String) = "b") = False := by decide
    have e3 : (("b" : String) = "c") = False := by decide
    have e4 : (("c" : String) = "b") = False := by decide
    have e5 : (("a" : String) = "c") = False := by decide
    have e6 : (("c" : String) = "a") = False := by decide
    have e7 : (("B" : String) = "A") = False := by decide
    have e8 : (("A" : String) = "B") = False := by decide
    have e9 : (("B" : String) = "C") = False := by decide
    have e10 : (("C" : String) = "B") = False := by decide
    have e11 : (("A" : String) = "C") = False := by decide
    have e12 : (("C" : String) = "A") = False := by decide
    norm_num [rrf_fuse, rrf_scores, rrf_scan, sort_desc, insert_desc, ainsert, alookup,
      chunkKey, chunkA, chunkB, chunkC, e1, e2, e3, e4, e5, e6, e7, e8, e9, e10, e11, e12]

/-- C5 witness: a concrete engine on the fused path, where vector search is
enabled and returns a result, takes the RRF-fused, top_k-truncated route. -/
theorem rrf_fuse_correct_witness :
    search engine_fused "q" 1 =
      (rrf_fuse [bm25_search engine_fused "q" (1 * 2),
        vector_search engine_fused "q" (1 * 2)] 60).take 1 :=
  rrf_fuse_correct.2.2.1 engine_fused "q" 1 rfl (by simp [vector_search, engine_fused])

def engine_lex : SearchEngine :=
  ⟨[chunkA], true, fun _ => [1], false, false, fun _ => .error (), fun _ _ => .error ()⟩

/-- C8: hybrid search returns the lexical BM25 results truncated to top_k
whenever vector search is disabled, returns no results, or its embedding
call raises; no error propagates (search is total). -/
theorem search_lexical_fallback (e : SearchEngine) (q : String) (k : ℕ) :
    (e.vector_enabled = false → search e q k = (bm25_search e q (k * 2)).take k) ∧
    (vector_search e q (k * 2) = [] → search e q k = (bm25_search e q (k * 2)).take k) ∧
    (e.embed_oracle q = .error () → search e q k = (bm25_search e q (k * 2)).take k) := by
  have fallback : vector_search e q (k * 2) = [] →
      search e q k = (bm25_search e q (k * 2)).take k := by
    intro h
    by_cases hen : e.vector_enabled = true
    · simp [search, hen, h]
    · simp only [Bool.not_eq_true] at hen
      simp [search, hen]
  refine ⟨?_, fallback, ?_⟩
  · intro h
    simp [search, h]
  · intro h
    apply fallback
    unfold vector_search
    by_cases hcond : (!e.vector_enabled || !e.has_store) = true
    · rw [if_pos hcond]
    · rw [if_neg hcond, h]

/-- C8 witness: an engine with vector search disabled falls back to the
truncated lexical results. -/
theorem search_lexical_fallback_witness :
    search engine_lex "q" 2 = (bm25_search engine_lex "q" (2 * 2)).take 2 :=
  (search_lexical_fallback engine_lex "q" 2).1 rfl

/-! Embedding store (src/src/adk_claw/memory/embeddings.py).

The chunks table is a list of records with autoincrementing ids and a UNIQUE
content_hash column; the vec_chunks table pairs row ids with vectors.  The
SHA-256 fingerprint over the source|heading|content key is modelled by that
key string itself (the hash is assumed collision-free, and the pipe-joined
key construction, collisions included, is preserved).  upsert_chunks zips
chunks with embeddings and inserts each pair; an insert whose hash is
already present raises the uniqueness error, which the code swallows,
leaving the store unmodified and the counter unchanged. -/

structure ChunkRecord where
  id : ℕ
  source_file : String
  heading : String
  content : String
  content_hash : String
  deriving DecidableEq

structure ChunkIn where
  source_file : String
  heading : String
  content : String
  content_hash : String
  deriving DecidableEq

structure StoreState where
  next_id : ℕ
  chunks : List ChunkRecord
  vec_chunks : List (ℕ × List ℚ)
  deriving DecidableEq

def content_hash (source_file heading content : String) : String :=
  source_file ++ "|" ++ heading ++ "|" ++ content

def existing_hashes (st : StoreState) : List String :=
  st.chunks.map (fun r => r.content_hash)

def upsert_step (acc : StoreState × ℕ) (ce : ChunkIn × List ℚ) : StoreState × ℕ :=
  if ce.1.content_hash ∈ existing_hashes acc.1 then acc
  else
    (⟨acc.1.next_id + 1,
      acc.1.chunks ++ [⟨acc.1.next_id, ce.1.source_file, ce.1.heading, ce.1.content,
        ce.1.content_hash⟩],
      acc.1.vec_chunks ++ [(acc.1.next_id, ce.2)]⟩, acc.2 + 1)

def upsert_chunks (st : StoreState) (chunks : List ChunkIn) (embeddings : List (List ℚ)) :
    StoreState × ℕ :=
  (chunks.zip embeddings).foldl upsert_step (st, 0)

theorem upsert_fold_length (ps : List (ChunkIn × List ℚ)) :
    ∀ (st : StoreState) (n : ℕ),
      (ps.foldl upsert_step (st, n)).2 + st.chunks.length =
        n + (ps.foldl upsert_step (st, n)).1.chunks.length := by
  induction ps with
  | nil => intro st n; simp
  | cons ce rest ih =>
    intro st n
    rw [List.foldl_cons]
    by_cases h : ce.1.content_hash ∈ existing_hashes st
    · rw [show upsert_step (st, n) ce = (st, n) from by simp [upsert_step, h]]
      exact ih st n
    · rw [show upsert_step (st, n) ce =
          (⟨st.next_id + 1,
            st.chunks ++ [⟨st.next_id, ce.1.source_file, ce.1.heading, ce.1.content,
              ce.1.content_hash⟩],
            st.vec_chunks ++ [(st.next_id, ce.2)]⟩, n + 1) from by simp [upsert_step, h]]
      have hih := ih (⟨st.next_id + 1,
        st.chunks ++ [⟨st.next_id, ce.1.source_file, ce.1.heading, ce.1.content,
          ce.1.content_hash⟩],
        st.vec_chunks ++ [(st.next_id, ce.2)]⟩ : StoreState) (n + 1)
      simp only [List.length_append, List.length_cons, List.length_nil] at hih ⊢
      omega

theorem upsert_fold_mem (ps : List (ChunkIn × List ℚ)) :
    ∀ (st : StoreState) (n : ℕ) (r : ChunkRecord),
      r ∈ (ps.foldl upsert_step (st, n)).1.chunks →
      r ∈ st.chunks ∨ r.content_hash ∉ existing_hashes st := by
  induction ps with
  | nil => intro st n r h; exact Or.inl h
  | cons ce rest ih =>
    intro st n r h
    rw [List.foldl_cons] at h
    by_cases hc : ce.1.content_hash ∈ existing_hashes st
    · rw [show upsert_step (st, n) ce = (st, n) from by simp [upsert_step, hc]] at h
      exact ih st n r h
    · rw [show upsert_step (st, n) ce =
          (⟨st.next_id + 1,
            st.chunks ++ [⟨st.next_id, ce.1.source_file, ce.1.heading, ce.1.content,
              ce.1.content_hash⟩],
            st.vec_chunks ++ [(st.next_id, ce.2)]⟩, n + 1) from by simp [upsert_step, hc]] at h
      rcases ih _ _ r h with h1 | h1
      · rcases List.mem_append.mp h1 with h2 | h2
        · exact Or.inl h2
        · right
          rcases List.mem_singleton.mp h2 with h3
          rw [h3]
          exact hc
      · right
        intro hmem
        apply h1
        simp only [existing_hashes, List.map_append]
        exact List.mem_append_left _ (by simpa [existing_hashes] using hmem)

theorem upsert_fold_nodup (ps : List (ChunkIn × List ℚ)) :
    ∀ (st : StoreState) (n : ℕ), (existing_hashes st).Nodup →
      (existing_hashes (ps.foldl upsert_step (st, n)).1).Nodup := by
  induction ps with
  | nil => intro st n h; exact h
  | cons ce rest ih =>
    intro st n h
    rw [List.foldl_cons]
    by_cases hc : ce.1.content_hash ∈ existing_hashes st
    · rw [show upsert_step (st, n) ce = (st, n) from by simp [upsert_step, hc]]
      exact ih st n h
    · rw [show upsert_step (st, n) ce =
          (⟨st.next_id + 1,
            st.chunks ++ [⟨st.next_id, ce.1.source_file, ce.1.heading, ce.1.content,
              ce.1.content_hash⟩],
            st.vec_chunks ++ [(st.next_id, ce.2)]⟩, n + 1) from by simp [upsert_step, hc]]
      apply ih
      simp only [existing_hashes, List.map_append, List.map_cons, List.map_nil]
      rw [List.nodup_append]
      refine ⟨h, by simp, ?_⟩
      intro a ha hb
      simp at hb
      rw [hb] at ha
      exact hc (by simpa [existing_hashes] using ha)

def store0 : StoreState := ⟨1, [], []⟩

def chunk0 : ChunkIn := ⟨"s", "h", "c", content_hash "s" "h" "c"⟩

def vec0 : List ℚ := []

def store1 : StoreState :=
  ⟨2, [⟨1, "s", "h", "c", content_hash "s" "h" "c"⟩], [(1, [])]⟩

/-- C7: upsert inserts only chunks whose fingerprint is not yet stored
(every record of the result is an old record or has a hash new to the
store), the returned value is exactly the number of records the call added,
a duplicate-fingerprint insert is a no-op returning 0 and leaving the store
unmodified, hash uniqueness is preserved, and upserting the same
(source, heading, content) triple twice into a fresh store yields one stored
record, returning 1 and then 0. -/
theorem upsert_chunks_correct :
    (∀ (st : StoreState) (c : ChunkIn) (emb : List ℚ),
      c.content_hash ∈ existing_hashes st → upsert_chunks st [c] [emb] = (st, 0)) ∧
    (∀ (st : StoreState) (cs : List ChunkIn) (embs : List (List ℚ)),
      (upsert_chunks st cs embs).2 + st.chunks.length =
        (upsert_chunks st cs embs).1.chunks.length) ∧
    (∀ (st : StoreState) (cs : List ChunkIn) (embs : List (List ℚ)) (r : ChunkRecord),
      r ∈ (upsert_chunks st cs embs).1.chunks →
      r ∈ st.chunks ∨ r.content_hash ∉ existing_hashes st) ∧
    (∀ (st : StoreState) (cs : List ChunkIn) (embs : List (List ℚ)),
      (existing_hashes st).Nodup → (existing_hashes (upsert_chunks st cs embs).1).Nodup) ∧
    (upsert_chunks store0 [chunk0] [vec0] = (store1, 1) ∧
      upsert_chunks store1 [chunk0] [vec0] = (store1, 0) ∧
      store1.chunks.length = 1) := by
  refine ⟨?_, ?_, ?_, ?_, ?_, ?_, ?_⟩
  · intro st c emb h
    simp [upsert_chunks, upsert_step, h]
  · intro st cs embs
    have := upsert_fold_length (cs.zip embs) st 0
    unfold upsert_chunks
    omega
  · intro st cs embs r h
    exact upsert_fold_mem (cs.zip embs) st 0 r h
  · intro st cs embs h
    exact upsert_fold_nodup (cs.zip embs) st 0 h
  · decide
  · decide
  · decide

/-- C7 witness: upserting the triple into the store already holding it is a
no-op returning 0. -/
theorem upsert_chunks_correct_witness :
    upsert_chunks store1 [chunk0] [vec0] = (store1, 0) :=
  upsert_chunks_correct.1 store1 chunk0 vec0 (by decide)

end AdkClaw

